import Mathlib

/-!
Verification development for the narrator-identity-resolution and
chain-normalization engine of the `mki` repository (the Python sources under
`mki-etl/sanad_extraction/`).

Strings are modelled as `List Char`; Python floats that only ever hold exact
decimal fractions (match scores, thresholds) are modelled as `ℚ`; Python
dicts are modelled as association lists in insertion order, which matches
Python 3.7+ dict iteration-order semantics.
-/

namespace Mki

/-- Unicode code points matched by Python's `\s` / `str.split()` whitespace
(ASCII whitespace, the C1 and Unicode space separators). -/
def wsCodes : List Nat :=
  [9, 10, 11, 12, 13, 28, 29, 30, 31, 32, 133, 160, 5760,
   8192, 8193, 8194, 8195, 8196, 8197, 8198, 8199, 8200, 8201, 8202,
   8232, 8233, 8239, 8287, 12288]

def isWs (c : Char) : Bool := c.toNat ∈ wsCodes

/-- The diacritic class of `enrich_narrators.ARABIC_DIACRITICS` and
`resolve_kinship.DIACRITICS`:
`[ً-ٰٟۖ-ۜ۟-۪ۤۧۨ-ۭ]`. -/
def isDiacritic (c : Char) : Bool :=
  (0x64B ≤ c.toNat && c.toNat ≤ 0x65F) || c.toNat = 0x670 ||
  (0x6D6 ≤ c.toNat && c.toNat ≤ 0x6DC) || (0x6DF ≤ c.toNat && c.toNat ≤ 0x6E4) ||
  c.toNat = 0x6E7 || c.toNat = 0x6E8 || (0x6EA ≤ c.toNat && c.toNat ≤ 0x6ED)

/-- The diacritic class used by `validate_chains.py`, `fix_chains_from_csv.py`
and `fix_chains_gemini.py`: `[ً-ْٰ]`. -/
def isDiacriticV (c : Char) : Bool :=
  (0x64B ≤ c.toNat && c.toNat ≤ 0x652) || c.toNat = 0x670

/-- `re.sub(r'[إأآا]', 'ا', ·)` applied per character. -/
def alifMap (c : Char) : Char :=
  if c = 'إ' ∨ c = 'أ' ∨ c = 'آ' ∨ c = 'ا' then 'ا' else c

/-- `re.sub(r'ة', 'ه', ·)` applied per character. -/
def taaMap (c : Char) : Char := if c = 'ة' then 'ه' else c

/-- `re.sub(r'ى', 'ي', ·)` applied per character. -/
def yaaMap (c : Char) : Char := if c = 'ى' then 'ي' else c

/-- `leadsWith pat l` holds when `pat` is a leading segment of `l`
(the anchored-literal part of a `^pat...` regex match). -/
def leadsWith : List Char → List Char → Bool
  | [], _ => true
  | _ :: _, [] => false
  | a :: as, b :: bs => a == b && leadsWith as bs

/-- `re.sub(r'^PAT\s+', '', text)` for a literal `PAT`: if the text starts
with `PAT` followed by at least one whitespace character, drop `PAT` and the
maximal whitespace run after it; otherwise leave the text unchanged. -/
def stripSeq (pat : List Char) (l : List Char) : List Char :=
  if leadsWith pat l then
    let r := l.drop pat.length
    if r.takeWhile isWs ≠ [] then r.dropWhile isWs else l
  else l

/-- `re.sub(r'^و(?=[ا-ي])', '', text)`: drop a leading waw when the next
character lies in the code-point range `[ا-ي]` (lookahead, not
consumed). -/
def stripWaw (l : List Char) : List Char :=
  match l with
  | 'و' :: c :: rest =>
      if 0x627 ≤ c.toNat && c.toNat ≤ 0x64A then c :: rest else l
  | _ => l

/-- `re.sub(r'^ابTHIRD\s', 'ابو ', text)` (with `THIRD` = `ي` or `ا`):
rewrite a leading kunyah `ابي`/`ابا` followed by one whitespace character to
`ابو `. -/
def kunyahStart (third : Char) (l : List Char) : List Char :=
  match l with
  | 'ا' :: 'ب' :: c :: w :: rest =>
      if c == third && isWs w then 'ا' :: 'ب' :: 'و' :: ' ' :: rest else l
  | _ => l

/-- `re.sub(r'\sابTHIRD\s', ' ابو ', text)`: global, non-overlapping,
left-to-right replacement of a whitespace-delimited `ابي`/`ابا` with
` ابو `, continuing the scan after the consumed trailing whitespace, as
Python's `re.sub` does. -/
def kunyahMid (third : Char) : List Char → List Char
  | c :: c1 :: c2 :: c3 :: c4 :: rest =>
      if isWs c && c1 == 'ا' && c2 == 'ب' && c3 == third && isWs c4 then
        ' ' :: 'ا' :: 'ب' :: 'و' :: ' ' :: kunyahMid third rest
      else c :: kunyahMid third (c1 :: c2 :: c3 :: c4 :: rest)
  | l => l

/-- The whitespace-delimited words of a string, as Python's `str.split()`:
maximal runs of non-whitespace characters, with empty runs discarded. -/
def wordsOf (l : List Char) : List (List Char) :=
  (l.foldr
    (fun c acc =>
      if isWs c then [] :: acc
      else
        match acc with
        | [] => [[c]]
        | w :: ws => (c :: w) :: ws)
    [[]]).filter (fun w => !w.isEmpty)

/-- `' '.join(words)`. -/
def joinWords : List (List Char) → List Char
  | [] => []
  | [w] => w
  | w :: ws => w ++ ' ' :: joinWords ws

/-- Python `str.strip()`: drop leading and trailing whitespace. -/
def trim (l : List Char) : List Char :=
  ((l.dropWhile isWs).reverse.dropWhile isWs).reverse

/-- `enrich_narrators.normalize_arabic`: remove diacritics, strip the leading
particles `وعن`/`فعن`/`عن`, strip a leading conjunction waw, unify alif /
taa-marbuta / yaa variants, rewrite kunyah `ابي`/`ابا` to `ابو` at the start
and mid-string, and collapse whitespace (`' '.join(text.split())` followed by
`strip()`), in exactly the order of the Python source. -/
def normalize_arabic (text : List Char) : List Char :=
  if text = [] then []
  else
    let t := text.filter (fun c => !isDiacritic c)
    let t := stripSeq [ 'و', 'ع', 'ن'] t
    let t := stripSeq [ 'ف', 'ع', 'ن'] t
    let t := stripSeq [ 'ع', 'ن'] t
    let t := stripWaw t
    let t := t.map alifMap
    let t := t.map taaMap
    let t := t.map yaaMap
    let t := kunyahStart 'ي' t
    let t := kunyahStart 'ا' t
    let t := kunyahMid 'ي' t
    let t := kunyahMid 'ا' t
    trim (joinWords (wordsOf t))

/-- First-match association-list lookup, the model of Python `dict[k]` /
`dict.get(k)` (keys are unique in a Python dict, so first match is the
binding). -/
def assocFind {α β : Type} [DecidableEq α] : List (α × β) → α → Option β
  | [], _ => none
  | (k', v) :: rest, k => if k = k' then some v else assocFind rest k

/-- Python `d[k] = v`: replace the value at `k` in place if present,
otherwise append a new binding (insertion-order semantics of dicts). -/
def assocSet {α β : Type} [DecidableEq α] : List (α × β) → α → β → List (α × β)
  | [], k, v => [(k, v)]
  | (k', w) :: rest, k, v =>
      if k = k' then (k, v) :: rest else (k', w) :: assocSet rest k v

/-- Python `if k not in d: d[k] = v`. -/
def insertIfAbsent {α β : Type} [DecidableEq α] (l : List (α × β)) (k : α) (v : β) :
    List (α × β) :=
  if (assocFind l k).isSome then l else l ++ [(k, v)]

/-!
### Chain Builder (`extract_sanad_normalized.build_normalized_data`)

A `SanadRecord` is one surviving row of the filtered dataset: `book` is the
book key (after the Arabic-name → key mapping), `num` the parsed hadith
number, and `sanad` the narrator-name list produced by `parse_sanad_string`
(rows whose sanad failed to parse are represented by an empty `sanad`,
which the loop skips exactly as the Python `continue` does).
-/

structure SanadRecord where
  book : String
  num : Nat
  sanad : List String
deriving DecidableEq

/-- The mutable state of the `build_normalized_data` loop: the
`narrator_to_id` dict with its `next_narrator_id` counter, the
`chain_to_id` dict (narrator-ID tuple → chain number `n`, rendered as
`"c{n}"` by the Python code) with its `next_chain_id` counter, the
`chain_id_to_narrator_ids` dict, and the flattened
`hadith_chain_lookup` keyed by `(book, hadith_num)`. -/
structure BuildState where
  narrator_to_id : List (String × Nat)
  next_narrator_id : Nat
  chain_to_id : List (List Nat × Nat)
  chain_id_to_narrator_ids : List (Nat × List Nat)
  next_chain_id : Nat
  hadith_chain_lookup : List ((String × Nat) × Nat)
deriving DecidableEq

def initState : BuildState := ⟨[], 0, [], [], 0, []⟩

/-- Lines 214–217: `if narrator_name not in narrator_to_id: assign
next_narrator_id and bump it`, then read the id. -/
def getNarratorId (s : BuildState) (name : String) : BuildState × Nat :=
  match assocFind s.narrator_to_id name with
  | some i => (s, i)
  | none =>
      ({ s with
          narrator_to_id := s.narrator_to_id ++ [(name, s.next_narrator_id)],
          next_narrator_id := s.next_narrator_id + 1 },
       s.next_narrator_id)

/-- The `for narrator_name in sanad` loop building `narrator_ids` in
order. -/
def resolveIds (s : BuildState) : List String → BuildState × List Nat
  | [] => (s, [])
  | name :: rest =>
      let q := getNarratorId s name
      let p := resolveIds q.1 rest
      (p.1, q.2 :: p.2)

/-- One iteration of the `build_normalized_data` row loop: skip empty
sanads and already-seen `(book, hadith_num)` keys; otherwise resolve the
names to IDs, reuse the chain ID of an already-seen tuple or mint
`next_chain_id` for a fresh tuple (storing the tuple under the new ID),
and record the record → chain-ID link. -/
def processRecord (s : BuildState) (r : SanadRecord) : BuildState :=
  if r.sanad = [] then s
  else if (assocFind s.hadith_chain_lookup (r.book, r.num)).isSome then s
  else
    let p := resolveIds s r.sanad
    let s1 := p.1
    let ids := p.2
    match assocFind s1.chain_to_id ids with
    | some cid =>
        { s1 with
            hadith_chain_lookup := s1.hadith_chain_lookup ++ [((r.book, r.num), cid)] }
    | none =>
        { s1 with
            chain_to_id := s1.chain_to_id ++ [(ids, s1.next_chain_id)],
            chain_id_to_narrator_ids :=
              s1.chain_id_to_narrator_ids ++ [(s1.next_chain_id, ids)],
            next_chain_id := s1.next_chain_id + 1,
            hadith_chain_lookup :=
              s1.hadith_chain_lookup ++ [((r.book, r.num), s1.next_chain_id)] }

def build_normalized_data (records : List SanadRecord) : BuildState :=
  records.foldl processRecord initState

/-!
### Biographical Index Builder (`enrich_narrators.build_rawi_index`)

A row is modelled as `(arabic_name, entity)` where `arabic_name` is the
Arabic span already extracted from the CSV `name` field by
`extract_arabic_from_name` (pandas/regex I/O glue) and `entity` is an
opaque identifier standing for the `rawi_data` dict built from the row.
-/

def bnW : List Char := "بن".toList
def ibnW : List Char := "ابن".toList
def abuW : List Char := "ابو".toList
def umW : List Char := "ام".toList

/-- The `for i, part in enumerate(parts)` loop that indexes `"بن Y"` and the
father's name `Y` for the first occurrence of `بن` that has a following
token, then `break`s.  A trailing `بن` with no following token does not
trigger the body (the `i + 1 < len(parts)` guard), so scanning just runs
off the end. -/
def ibnInserts (d : Nat) : List (List Char) → List (List Char × Nat) → List (List Char × Nat)
  | p :: q :: rest, idx =>
      if p = bnW then
        let idx1 := insertIfAbsent idx (joinWords [p, q]) d
        if q.length ≥ 3 then insertIfAbsent idx1 q d else idx1
      else ibnInserts d (q :: rest) idx
  | _, idx => idx

/-- The seven `if key not in index:` insertion blocks that follow the
unconditional full-name assignment, in source order. -/
def derivedInserts (d : Nat) (parts : List (List Char)) (idx : List (List Char × Nat)) :
    List (List Char × Nat) :=
  let idx :=
    if parts ≠ [] ∧ (parts.headD []).length ≥ 3 then
      insertIfAbsent idx (parts.headD []) d
    else idx
  let idx :=
    if parts.length ≥ 2 then insertIfAbsent idx (joinWords (parts.take 2)) d
    else idx
  let idx :=
    if parts.length ≥ 3 then insertIfAbsent idx (joinWords (parts.take 3)) d
    else idx
  let idx :=
    if parts ≠ [] ∧ (parts.headD [] = abuW ∨ parts.headD [] = umW) then
      insertIfAbsent idx
        (if parts.length ≥ 2 then joinWords (parts.take 2) else parts.headD []) d
    else idx
  let idx := ibnInserts d parts idx
  let idx :=
    if parts.length ≥ 2 ∧ (parts.headD [] = ibnW ∨ parts.headD [] = bnW) ∧
        joinWords (parts.drop 1) ≠ [] then
      insertIfAbsent idx (joinWords (parts.drop 1)) d
    else idx
  let idx :=
    if parts.length ≥ 3 ∧ (parts.getLastD []).getLastD ' ' = 'ي' ∧
        (parts.getLastD []).length > 3 then
      insertIfAbsent idx (joinWords parts.dropLast) d
    else idx
  idx

/-- One iteration of the `build_rawi_index` row loop: skip rows with no
Arabic name or an empty normalized form; assign the full normalized name
unconditionally (`index[normalized] = rawi_data`, the Python comment says
overwriting duplicates is okay); then conditionally (`if key not in
index`) insert the derived keys: first token of length ≥ 3, first two and
first three tokens, the kunyah key for names starting `ابو`/`ام`, the
patronymic keys, the name with a leading `ابن`/`بن` dropped, and the name
with a trailing nisbah token (ending in `ي`, length > 3) dropped. -/
def processRow (idx : List (List Char × Nat)) (row : List Char × Nat) :
    List (List Char × Nat) :=
  if row.1 = [] then idx
  else
    let nz := normalize_arabic row.1
    if nz = [] then idx
    else
      let d := row.2
      let parts := wordsOf nz
      let idx := assocSet idx nz d
      derivedInserts d parts idx

def build_rawi_index (rows : List (List Char × Nat)) : List (List Char × Nat) :=
  rows.foldl processRow []

/-!
### Identity Matcher (`enrich_narrators.find_best_match` /
`calculate_similarity`)

The Python function receives the key list `normalized_keys` as a separate
argument, but every call site passes `list(rawi_index.keys())`, i.e. the
index's own keys in insertion order, so the loops below iterate directly
over the index entries.
-/

/-- Python's substring test `needle in hay` on strings. -/
def isSubstr (needle hay : List Char) : Bool :=
  hay.tails.any (fun t => leadsWith needle t)

/-- `enrich_narrators.calculate_similarity`: exact match 1.0; containment
`shorter/longer × 0.9`; otherwise `0.4 ×` character-level Jaccard
`+ 0.6 ×` word-level Jaccard. -/
def calculate_similarity (s1 s2 : List Char) : ℚ :=
  if s1 = [] ∨ s2 = [] then 0
  else
    let n1 := normalize_arabic s1
    let n2 := normalize_arabic s2
    if n1 = [] ∨ n2 = [] then 0
    else if n1 = n2 then 1
    else if isSubstr n1 n2 || isSubstr n2 n1 then
      ((min n1.length n2.length : Nat) : ℚ) / ((max n1.length n2.length : Nat) : ℚ) * (9 / 10)
    else
      let set1 := (n1.filter (fun c => !(c == ' '))).dedup
      let set2 := (n2.filter (fun c => !(c == ' '))).dedup
      if set1 = [] ∨ set2 = [] then 0
      else
        let jaccard : ℚ :=
          ((set1.filter (fun c => decide (c ∈ set2))).length : ℚ) /
            (((set1 ++ set2).dedup).length : ℚ)
        let words1 := (wordsOf n1).dedup
        let words2 := (wordsOf n2).dedup
        let wunion := ((words1 ++ words2).dedup).length
        let wordJaccard : ℚ :=
          if 0 < wunion then
            (((words1.filter (fun w => decide (w ∈ words2))).length : ℚ) / (wunion : ℚ))
          else 0
        jaccard * (4 / 10) + wordJaccard * (6 / 10)

/-- The containment loop of `find_best_match`: return the first indexed
key (in index order) that contains or is contained in the normalized
query with score `shorter/longer × 0.95` at or above the threshold; keys
whose containment score is under the threshold are skipped. -/
def containLoop (nq : List Char) (th : ℚ) : List (List Char × Nat) → Option (Option Nat × ℚ)
  | [] => none
  | (k, d) :: rest =>
      if isSubstr nq k || isSubstr k nq then
        let score : ℚ :=
          ((min nq.length k.length : Nat) : ℚ) / ((max nq.length k.length : Nat) : ℚ) * (95 / 100)
        if th ≤ score then some (some d, score) else containLoop nq th rest
      else containLoop nq th rest

/-- The fuzzy loop of `find_best_match`: best similarity over all indexed
keys, strict improvement only (`score > best_score`). -/
def fuzzyLoop (nq : List Char) : List (List Char × Nat) → Option Nat × ℚ → Option Nat × ℚ
  | [], acc => acc
  | (k, d) :: rest, acc =>
      let s := calculate_similarity nq k
      if acc.2 < s then fuzzyLoop nq rest (some d, s) else fuzzyLoop nq rest acc

/-- `enrich_narrators.find_best_match`: empty normalized query → `(None,
0.0)`; exact index hit → confidence 1.0; else the containment loop; else
`(None, 0.0)` unless fuzzy matching is enabled, in which case the best
fuzzy score is returned when it reaches the threshold. -/
def find_best_match (narrator_name : List Char) (rawi_index : List (List Char × Nat))
    (threshold : ℚ) (use_fuzzy : Bool) : Option Nat × ℚ :=
  let normalized := normalize_arabic narrator_name
  if normalized = [] then (none, 0)
  else
    match assocFind rawi_index normalized with
    | some d => (some d, 1)
    | none =>
        match containLoop normalized threshold rawi_index with
        | some res => res
        | none =>
            if !use_fuzzy then (none, 0)
            else
              let best := fuzzyLoop normalized rawi_index (none, 0)
              if threshold ≤ best.2 then best else (none, 0)

/-!
### Chain correction (`fix_chains_from_csv.main` / `fix_chains_gemini.main`)

Both correction loops map each corrected name to a narrator ID through a
lookup function (`find_narrator_id` with its exact/substring/word-overlap
strategies and, in the CSV fixer, a memo cache that only caches successful
strategies' results); the claims under verification concern the
all-or-nothing control flow around that lookup, so the resolver is a
parameter here.
-/

structure FixMismatch where
  hadith_id : String
  chain_id : String
  csv_chain : List String
deriving DecidableEq

/-- One entry of `unfixable_chains.json`; `resolvedIds` is the Python
`partial_chain` field (the narrator IDs resolved so far, in order). -/
structure UnfixableEntry where
  hadith_id : String
  chain_id : String
  csv_chain : List String
  missing_narrators : List String
  resolvedIds : List Nat
deriving DecidableEq

structure FixState where
  chains : List (String × List Nat)
  unfixable : List UnfixableEntry
deriving DecidableEq

/-- The `for name in csv_chain` loop: resolved IDs in order on the left,
unresolved names in order on the right (`new_chain` / `missing_narrators`
in the Python). -/
def splitResolve (resolve : String → Option Nat) : List String → List Nat × List String
  | [] => ([], [])
  | n :: rest =>
      let p := splitResolve resolve rest
      match resolve n with
      | some i => (i :: p.1, p.2)
      | none => (p.1, n :: p.2)

/-- One iteration of the `fix_chains_from_csv.main` mismatch loop (lines
209–231): if any name failed to resolve, append an unfixable entry
carrying the missing names and the partial ID list and leave `chains`
untouched; otherwise overwrite `chains[chain_id]` with the fully resolved
ID list. -/
def processMismatchCsv (resolve : String → Option Nat) (s : FixState) (m : FixMismatch) :
    FixState :=
  let p := splitResolve resolve m.csv_chain
  if p.2 ≠ [] then
    { s with
        unfixable := s.unfixable ++ [⟨m.hadith_id, m.chain_id, m.csv_chain, p.2, p.1⟩] }
  else { s with chains := assocSet s.chains m.chain_id p.1 }

/-- One entry of `gemini_skipped.json` as appended by the
missing-narrators branch: only the hadith/chain IDs, a reason string
naming at most the first three missing names, and the oracle's confidence
label. -/
structure GeminiSkip where
  hadith_id : String
  chain_id : String
  reason : String
  confidence : String
deriving DecidableEq

structure GeminiState where
  chains : List (String × List Nat)
  skipped : List GeminiSkip
deriving DecidableEq

def geminiReason (missing : List String) : String :=
  "Missing: " ++ String.intercalate ", " (missing.take 3)

/-- The resolution tail of one `fix_chains_gemini.main` iteration (lines
275–296), after a non-empty oracle response was parsed: resolve each
returned name; if any is missing, append a skip entry (reason naming up
to three missing names) and leave `chains` untouched; otherwise overwrite
`chains[chain_id]`. -/
def processGeminiResult (resolve : String → Option Nat) (s : GeminiState)
    (hadith_id chain_id : String) (correct_chain : List String) (confidence : String) :
    GeminiState :=
  let p := splitResolve resolve correct_chain
  if p.2 ≠ [] then
    { s with
        skipped := s.skipped ++ [⟨hadith_id, chain_id, geminiReason p.2, confidence⟩] }
  else { s with chains := assocSet s.chains chain_id p.1 }

/-- A small concrete resolver used only to instantiate correction-loop
theorems at concrete inputs. -/
def toyResolve : String → Option Nat :=
  fun n => if n = "a" then some 0 else if n = "b" then some 1 else none

/-!
### Cross-Source Reconciler (`validate_chains.py`)
-/

/-- `validate_chains.normalize_arabic` (shared verbatim by the two chain
fixers): remove the `[ً-ْٰ]` diacritics, unify alif / taa-marbuta / yaa,
and collapse whitespace (`re.sub(r"\s+", " ", ·).strip()`, which agrees
with joining the whitespace-split words by single spaces). -/
def normalizeV (text : List Char) : List Char :=
  let t := text.filter (fun c => !isDiacriticV c)
  let t := t.map alifMap
  let t := t.map taaMap
  let t := t.map yaaMap
  trim (joinWords (wordsOf t))

/-- `common_words` of `validate_chains.names_match`. -/
def commonWordsV : List (List Char) :=
  [ "بن".toList, "ابن".toList, "ابي".toList, "ام".toList, "عبد".toList, "بنت".toList]

/-- The significant tokens of a (already normalized) name: its
whitespace-split words minus the fixed common-word set. -/
def significantWords (l : List Char) : List (List Char) :=
  (wordsOf l).filter (fun w => decide (w ∉ commonWordsV))

/-- `validate_chains.names_match` on already-normalized names: direct
equality, substring containment either way, or at least one shared
significant token (both significant sets must be non-empty, which the
shared token already forces). -/
def names_match (a b : List Char) : Bool :=
  if a = b then true
  else if isSubstr a b || isSubstr b a then true
  else
    let sa := significantWords a
    let sb := significantWords b
    if sa ≠ [] ∧ sb ≠ [] then sa.any (fun w => decide (w ∈ sb)) else false

/-- The classification carried by the second component of
`chains_match`'s result.  The Python encodes it as the strings
`"count_diff:AvsB"`, `"name_diff:positions:[...]"` and `"matched"`; the
tagged value below carries exactly the same data. -/
inductive ChainCmp where
  | countDiff (jsonLen csvLen : Nat)
  | nameDiff (positions : List Nat)
  | matched
deriving DecidableEq

/-- The `for i, (jn, cn) in enumerate(zip(...))` loop collecting the
0-based positions at which `names_match` fails. -/
def mismatchPositions : Nat → List (List Char × List Char) → List Nat
  | _, [] => []
  | i, (a, b) :: rest =>
      if names_match a b then mismatchPositions (i + 1) rest
      else i :: mismatchPositions (i + 1) rest

/-- `validate_chains.chains_match`: length difference → count mismatch
with no positional detail; otherwise position-by-position comparison,
returning `matched` exactly when no position fails. -/
def chains_match (json_names csv_names : List (List Char)) : Bool × ChainCmp :=
  if json_names.length ≠ csv_names.length then
    (false, ChainCmp.countDiff json_names.length csv_names.length)
  else
    let ps := mismatchPositions 0 (json_names.zip csv_names)
    if ps ≠ [] then (false, ChainCmp.nameDiff ps) else (true, ChainCmp.matched)

/-!
### Kinship Resolver (`extract_sanad_normalized.resolve_relative_term`
and `resolve_kinship.extract_father_name_from_patronymic`)
-/

/-- The anchored alternatives of `FATHER_PATTERNS`
(`^أَبِيهِ|^أبيه|^أَبِيهَا|^أبيها|^أَبَاهُ|^أباه`), in source order. -/
def fatherAlts : List (List Char) :=
  [ "أَبِيهِ".toList, "أبيه".toList, "أَبِيهَا".toList, "أبيها".toList,
    "أَبَاهُ".toList, "أباه".toList]

/-- `GRANDFATHER_PATTERNS` alternatives. -/
def grandAlts : List (List Char) :=
  [ "جَدِّهِ".toList, "جده".toList, "جَدَّتِهِ".toList, "جدته".toList]

/-- `UNCLE_PATTERNS` alternatives. -/
def uncleAlts : List (List Char) :=
  [ "عَمِّهِ".toList, "عمه".toList]

/-- Anchored alternation: the first alternative that is a leading segment
of the term matches, and `PATTERNS.sub('', term)` drops exactly that
leading match (`^`-anchored, so there is at most one). -/
def matchAlts : List (List Char) → List Char → Option (List Char)
  | [], _ => none
  | a :: rest, l => if leadsWith a l then some (l.drop a.length) else matchAlts rest l

/-- `name_after.strip()` followed by `re.sub(r'^[،,\s]+', '', ·).strip()`. -/
def cleanAfter (rest : List Char) : List Char :=
  trim ((trim rest).dropWhile (fun c => c == '،' || c == ',' || isWs c))

/-- `\s+(.+)` matched immediately after a literal: the whitespace run is
greedy but backtracks (one character at a time) until the capture `(.+)`
can start with a non-newline character; the capture is then the maximal
newline-free run from that point.  `capSplitAux rest i` tries a
whitespace prefix of length `i` downwards. -/
def capSplitAux (rest : List Char) : Nat → Option (List Char)
  | 0 => none
  | i + 1 =>
      let t := rest.drop (i + 1)
      if t.headD '\n' ≠ '\n' then some (t.takeWhile (fun c => !(c == '\n')))
      else capSplitAux rest i

def capSplit (rest : List Char) : Option (List Char) :=
  capSplitAux rest (rest.takeWhile isWs).length

def tryLitCap (lit : List Char) (l : List Char) : Option (List Char) :=
  if leadsWith lit l then capSplit (l.drop lit.length) else none

/-- The alternatives of `IBN_PATTERN`
(`بْنِ\s+(.+)|بن\s+(.+)|بِنْتِ\s+(.+)|بنت\s+(.+)`), in source order. -/
def ibnAlts : List (List Char) :=
  [ "بْنِ".toList, "بن".toList, "بِنْتِ".toList, "بنت".toList]

def tryLitsCap : List (List Char) → List Char → Option (List Char)
  | [], _ => none
  | a :: rest, l =>
      match tryLitCap a l with
      | some cap => some cap
      | none => tryLitsCap rest l

/-- `IBN_PATTERN.search`: leftmost starting position wins; at each
position the alternatives are tried in order; the result is the matched
alternative's capture (the single non-empty group). -/
def ibnSearch : List Char → Option (List Char)
  | [] => none
  | c :: cs =>
      match tryLitsCap ibnAlts (c :: cs) with
      | some cap => some cap
      | none => ibnSearch cs

/-- `extract_sanad_normalized.resolve_relative_term`: father /
grandfather / uncle reference terms are resolved, in that order, first
from a name embedded in the term itself (when longer than two characters
after cleanup), then — for father and grandfather — from the patronymic
pattern of the previous narrator's name (one extra patronymic level for a
grandfather); unresolvable terms are returned unchanged. -/
def resolve_relative_term (term : List Char) (previous : Option (List Char)) : List Char :=
  match matchAlts fatherAlts term with
  | some rest =>
      let na := cleanAfter rest
      if na ≠ [] ∧ 2 < na.length then na
      else
        match previous with
        | some prev =>
            if prev = [] then term
            else
              match ibnSearch prev with
              | some cap => if cap ≠ [] then trim cap else term
              | none => term
        | none => term
  | none =>
      match matchAlts grandAlts term with
      | some rest =>
          let na := cleanAfter rest
          if na ≠ [] ∧ 2 < na.length then na
          else
            match previous with
            | some prev =>
                if prev = [] then term
                else
                  match ibnSearch prev with
                  | some father =>
                      if father ≠ [] then
                        match ibnSearch father with
                        | some g => if g ≠ [] then trim g else term
                        | none => term
                      else term
                  | none => term
            | none => term
      | none =>
          match matchAlts uncleAlts term with
          | some rest =>
              let na := cleanAfter rest
              if na ≠ [] ∧ 2 < na.length then na else term
          | none => term

/-- The relative-term resolution pass of `parse_sanad_string` (lines
126–129): each name is resolved against the previously *resolved* name
(`resolved[-1] if resolved else None`). -/
def resolveChainTerms (names : List (List Char)) : List (List Char) :=
  names.foldl (fun acc name => acc ++ [resolve_relative_term name acc.getLast?]) []

/-- `resolve_kinship.normalize`: diacritics removal and alif /
taa-marbuta / yaa unification, with no whitespace handling. -/
def normalizeK (text : List Char) : List Char :=
  (((text.filter (fun c => !isDiacritic c)).map alifMap).map taaMap).map yaaMap

/-- `(?:\s+\S+)?` — greedily extend the capture by one more
whitespace-run-plus-token when present, returning the extended capture
and the remaining text. -/
def optWsTok (cap : List Char) (r : List Char) : List Char × List Char :=
  let w := r.takeWhile isWs
  let r1 := r.drop w.length
  let t := r1.takeWhile (fun c => !isWs c)
  if w ≠ [] ∧ t ≠ [] then (cap ++ w ++ t, r1.drop t.length) else (cap, r)

/-- `\s+(\S+(?:\s+\S+)?(?:\s+\S+)?)` matched immediately after the
`بن`/`ابن` literal: whitespace run, then the capture of one to three
tokens (with their separating whitespace). -/
def patCapAt (rest : List Char) : Option (List Char) :=
  let w := rest.takeWhile isWs
  if w = [] then none
  else
    let r1 := rest.drop w.length
    let t1 := r1.takeWhile (fun c => !isWs c)
    if t1 = [] then none
    else
      let p1 := optWsTok t1 (r1.drop t1.length)
      let p2 := optWsTok p1.1 p1.2
      some p2.1

/-- The search of `re.search(r'(?:بن|ابن)\s+(\S+(?:\s+\S+)?(?:\s+\S+)?)', ·)`:
leftmost position wins, `بن` tried before `ابن` at each position (their
first characters differ, so at most one literal applies per position). -/
def patSearch : List Char → Option (List Char)
  | [] => none
  | c :: cs =>
      match
        (if leadsWith bnW (c :: cs) then patCapAt ((c :: cs).drop 2)
         else if leadsWith ibnW (c :: cs) then patCapAt ((c :: cs).drop 3)
         else none) with
      | some cap => some cap
      | none => patSearch cs

/-- `compound_prefixes` of `extract_father_name_from_patronymic`. -/
def compoundHeads : List (List Char) :=
  [ "ابي".toList, "ابو".toList, "ابا".toList, "ام".toList, "عبد".toList,
    "عبيد".toList, "ال".toList]

/-- `resolve_kinship.extract_father_name_from_patronymic`: normalize, find
the first `بن`/`ابن` followed by up to three tokens; keep the whole
captured part when its first word is a compound-name head (or starts with
the article `ال`), otherwise keep just the first word. -/
def extract_father_name_from_patronymic (name : List Char) : Option (List Char) :=
  let normalized := normalizeK name
  match patSearch normalized with
  | none => none
  | some cap =>
      let father_part := trim cap
      let first_word := if father_part ≠ [] then (wordsOf father_part).headD [] else []
      if first_word ∈ compoundHeads ∨ leadsWith "ال".toList first_word then
        some father_part
      else some first_word

/-!
## Theorems

Generic association-list lemmas used throughout.
-/

theorem assocFind_eq_some_mem {α β : Type} [DecidableEq α] {l : List (α × β)} {k : α}
    {v : β} (h : assocFind l k = some v) : (k, v) ∈ l := by
  induction l with
  | nil => simp [assocFind] at h
  | cons p rest ih =>
      obtain ⟨k', w⟩ := p
      by_cases hk : k = k'
      · subst hk
        simp [assocFind] at h
        simp [h]
      · simp only [assocFind, if_neg hk] at h
        exact List.mem_cons_of_mem _ (ih h)

theorem assocFind_eq_none_not_key {α β : Type} [DecidableEq α] {l : List (α × β)} {k : α}
    (h : assocFind l k = none) : k ∉ l.map Prod.fst := by
  induction l with
  | nil => simp
  | cons p rest ih =>
      obtain ⟨k', w⟩ := p
      by_cases hk : k = k'
      · subst hk; simp [assocFind] at h
      · simp only [assocFind, if_neg hk] at h
        simp only [List.map_cons, List.mem_cons]
        exact fun hc => hc.elim (fun he => hk he) (ih h)

theorem assocFind_of_mem_nodupKeys {α β : Type} [DecidableEq α] {l : List (α × β)}
    {k : α} {v : β} (hnd : (l.map Prod.fst).Nodup) (hm : (k, v) ∈ l) :
    assocFind l k = some v := by
  induction l with
  | nil => simp at hm
  | cons p rest ih =>
      obtain ⟨k', w⟩ := p
      simp only [List.map_cons, List.nodup_cons] at hnd
      rcases List.mem_cons.mp hm with he | hr
      · obtain ⟨hk, hv⟩ := Prod.mk.injEq .. ▸ he
        subst hk; subst hv
        simp [assocFind]
      · by_cases hk : k = k'
        · subst hk
          exact absurd (List.mem_map_of_mem Prod.fst hr) hnd.1
        · simp only [assocFind, if_neg hk]
          exact ih hnd.2 hr

theorem mem_unique_of_fst_nodup {α β : Type} {l : List (α × β)} {k : α} {v₁ v₂ : β}
    (hnd : (l.map Prod.fst).Nodup) (h₁ : (k, v₁) ∈ l) (h₂ : (k, v₂) ∈ l) : v₁ = v₂ := by
  induction l with
  | nil => simp at h₁
  | cons p rest ih =>
      obtain ⟨k', w⟩ := p
      simp only [List.map_cons, List.nodup_cons] at hnd
      rcases List.mem_cons.mp h₁ with he₁ | hr₁ <;> rcases List.mem_cons.mp h₂ with he₂ | hr₂
      · cases he₁; cases he₂; rfl
      · cases he₁
        exact absurd (List.mem_map_of_mem Prod.fst hr₂) hnd.1
      · cases he₂
        exact absurd (List.mem_map_of_mem Prod.fst hr₁) hnd.1
      · exact ih hnd.2 hr₁ hr₂

theorem mem_unique_of_snd_nodup {α β : Type} {l : List (α × β)} {k₁ k₂ : α} {v : β}
    (hnd : (l.map Prod.snd).Nodup) (h₁ : (k₁, v) ∈ l) (h₂ : (k₂, v) ∈ l) : k₁ = k₂ := by
  induction l with
  | nil => simp at h₁
  | cons p rest ih =>
      obtain ⟨k', w⟩ := p
      simp only [List.map_cons, List.nodup_cons] at hnd
      rcases List.mem_cons.mp h₁ with he₁ | hr₁ <;> rcases List.mem_cons.mp h₂ with he₂ | hr₂
      · cases he₁; cases he₂; rfl
      · cases he₁
        exact absurd (List.mem_map_of_mem Prod.snd hr₂) hnd.1
      · cases he₂
        exact absurd (List.mem_map_of_mem Prod.snd hr₁) hnd.1
      · exact ih hnd.2 hr₁ hr₂

/-- **C1** (status: code bug).  The spec requires
`normalize(normalize(s)) == normalize(s)` for all inputs, but
`normalize_arabic` strips one leading conjunction waw per application, so
on the input `"ووهب"` the first pass yields `"وهب"` and the second pass
strips again to `"هب"`: the code is not idempotent at this input. -/
theorem normalize_arabic_not_idempotent_on_waw_wahb :
    normalize_arabic "ووهب".toList = "وهب".toList ∧
    normalize_arabic (normalize_arabic "ووهب".toList) = "هب".toList ∧
    normalize_arabic (normalize_arabic "ووهب".toList) ≠ normalize_arabic "ووهب".toList :=
  ⟨by decide, by decide, by decide⟩

/-- The loop invariant of `build_normalized_data`: narrator IDs are handed
out consecutively from 0 in first-appearance order, chain numbers are
handed out consecutively from 0, the tuple table has unique tuples,
`chain_id_to_narrator_ids` mirrors the tuple table exactly, every ID in a
stored tuple is a minted narrator ID, and every record link points at a
minted chain number. -/
structure BuildInv (s : BuildState) : Prop where
  narrIds : s.narrator_to_id.map Prod.snd = List.range s.next_narrator_id
  narrKeys : (s.narrator_to_id.map Prod.fst).Nodup
  chainIds : s.chain_to_id.map Prod.snd = List.range s.next_chain_id
  chainKeys : (s.chain_to_id.map Prod.fst).Nodup
  mirror : s.chain_id_to_narrator_ids = s.chain_to_id.map (fun p => (p.2, p.1))
  bounded : ∀ t c, (t, c) ∈ s.chain_to_id → ∀ i ∈ t, i < s.next_narrator_id
  lookupChains : ∀ k c, (k, c) ∈ s.hadith_chain_lookup → c ∈ s.chain_to_id.map Prod.snd

theorem getNarratorId_spec (s : BuildState) (name : String)
    (h1 : s.narrator_to_id.map Prod.snd = List.range s.next_narrator_id)
    (h2 : (s.narrator_to_id.map Prod.fst).Nodup) :
    (getNarratorId s name).1.narrator_to_id.map Prod.snd =
        List.range (getNarratorId s name).1.next_narrator_id ∧
    ((getNarratorId s name).1.narrator_to_id.map Prod.fst).Nodup ∧
    s.next_narrator_id ≤ (getNarratorId s name).1.next_narrator_id ∧
    (getNarratorId s name).2 < (getNarratorId s name).1.next_narrator_id ∧
    (getNarratorId s name).1.chain_to_id = s.chain_to_id ∧
    (getNarratorId s name).1.chain_id_to_narrator_ids = s.chain_id_to_narrator_ids ∧
    (getNarratorId s name).1.next_chain_id = s.next_chain_id ∧
    (getNarratorId s name).1.hadith_chain_lookup = s.hadith_chain_lookup := by
  cases h : assocFind s.narrator_to_id name with
  | some i =>
      have hm : i ∈ s.narrator_to_id.map Prod.snd :=
        List.mem_map_of_mem Prod.snd (assocFind_eq_some_mem h)
      rw [h1, List.mem_range] at hm
      simp [getNarratorId, h, h1, h2, hm]
  | none =>
      have hk : name ∉ s.narrator_to_id.map Prod.fst := assocFind_eq_none_not_key h
      refine ⟨?_, ?_, ?_, ?_, ?_, ?_, ?_, ?_⟩ <;>
        simp [getNarratorId, h, List.range_succ, h1, List.nodup_append, h2, hk,
          Nat.le_succ, Nat.lt_succ_self]

theorem resolveIds_spec (names : List String) :
    ∀ (s : BuildState),
    s.narrator_to_id.map Prod.snd = List.range s.next_narrator_id →
    (s.narrator_to_id.map Prod.fst).Nodup →
    (resolveIds s names).1.narrator_to_id.map Prod.snd =
        List.range (resolveIds s names).1.next_narrator_id ∧
    ((resolveIds s names).1.narrator_to_id.map Prod.fst).Nodup ∧
    s.next_narrator_id ≤ (resolveIds s names).1.next_narrator_id ∧
    (∀ i ∈ (resolveIds s names).2, i < (resolveIds s names).1.next_narrator_id) ∧
    (resolveIds s names).1.chain_to_id = s.chain_to_id ∧
    (resolveIds s names).1.chain_id_to_narrator_ids = s.chain_id_to_narrator_ids ∧
    (resolveIds s names).1.next_chain_id = s.next_chain_id ∧
    (resolveIds s names).1.hadith_chain_lookup = s.hadith_chain_lookup := by
  induction names with
  | nil => intro s h1 h2; simpa [resolveIds] using ⟨h1, h2⟩
  | cons name rest ih =>
      intro s h1 h2
      obtain ⟨g1, g2, g3, g4, g5, g6, g7, g8⟩ := getNarratorId_spec s name h1 h2
      obtain ⟨r1, r2, r3, r4, r5, r6, r7, r8⟩ := ih (getNarratorId s name).1 g1 g2
      refine ⟨?_, ?_, ?_, ?_, ?_, ?_, ?_, ?_⟩ <;>
        simp only [resolveIds] <;>
        first
          | exact r1
          | exact r2
          | exact le_trans g3 r3
          | exact r5.trans g5
          | exact r6.trans g6
          | exact r7.trans g7
          | exact r8.trans g8
          | skip
      intro i hi
      rcases List.mem_cons.mp hi with he | hr
      · subst he; exact lt_of_lt_of_le g4 r3
      · exact r4 i hr

theorem processRecord_inv {s : BuildState} (r : SanadRecord) (h : BuildInv s) :
    BuildInv (processRecord s r) := by
  by_cases he : r.sanad = []
  · simpa [processRecord, he] using h
  by_cases hl : (assocFind s.hadith_chain_lookup (r.book, r.num)).isSome
  · simpa [processRecord, he, hl] using h
  obtain ⟨r1, r2, r3, r4, r5, r6, r7, r8⟩ :=
    resolveIds_spec r.sanad s h.narrIds h.narrKeys
  cases hf : assocFind (resolveIds s r.sanad).1.chain_to_id (resolveIds s r.sanad).2 with
  | some cid =>
      have hmem : cid ∈ (resolveIds s r.sanad).1.chain_to_id.map Prod.snd :=
        List.mem_map_of_mem Prod.snd (assocFind_eq_some_mem hf)
      have hpr : processRecord s r =
          { (resolveIds s r.sanad).1 with
              hadith_chain_lookup := (resolveIds s r.sanad).1.hadith_chain_lookup ++
                [((r.book, r.num), cid)] } := by
        simp [processRecord, he, hl, hf]
      rw [hpr]
      refine ⟨by simpa using r1, by simpa using r2, ?_, ?_, ?_, ?_, ?_⟩ <;>
        simp only [r5, r6, r7, r8]
      · exact h.chainIds
      · exact h.chainKeys
      · exact h.mirror
      · intro t c hm i hi
        exact lt_of_lt_of_le (h.bounded t c hm i hi) r3
      · intro k c hm
        rcases List.mem_append.mp hm with hm | hm
        · exact h.lookupChains k c hm
        · simp only [List.mem_singleton] at hm
          cases hm
          rw [r5] at hmem
          exact hmem
  | none =>
      have hnk : (resolveIds s r.sanad).2 ∉
          (resolveIds s r.sanad).1.chain_to_id.map Prod.fst :=
        assocFind_eq_none_not_key hf
      have hpr : processRecord s r =
          { (resolveIds s r.sanad).1 with
              chain_to_id := (resolveIds s r.sanad).1.chain_to_id ++
                [((resolveIds s r.sanad).2, (resolveIds s r.sanad).1.next_chain_id)],
              chain_id_to_narrator_ids :=
                (resolveIds s r.sanad).1.chain_id_to_narrator_ids ++
                  [((resolveIds s r.sanad).1.next_chain_id, (resolveIds s r.sanad).2)],
              next_chain_id := (resolveIds s r.sanad).1.next_chain_id + 1,
              hadith_chain_lookup := (resolveIds s r.sanad).1.hadith_chain_lookup ++
                [((r.book, r.num), (resolveIds s r.sanad).1.next_chain_id)] } := by
        simp [processRecord, he, hl, hf]
      rw [hpr]
      refine ⟨by simpa using r1, by simpa using r2, ?_, ?_, ?_, ?_, ?_⟩ <;>
        simp only [r5, r6, r7, r8]
      · simp [List.map_append, h.chainIds, List.range_succ]
      · rw [List.map_append, List.nodup_append]
        refine ⟨h.chainKeys, List.nodup_singleton _, ?_⟩
        intro x hx hy
        simp only [List.map_cons, List.map_nil, List.mem_singleton] at hy
        subst hy
        rw [r5] at hnk
        exact hnk hx
      · simp [List.map_append, h.mirror]
      · intro t c hm i hi
        rcases List.mem_append.mp hm with hm | hm
        · exact lt_of_lt_of_le (h.bounded t c hm i hi) r3
        · simp only [List.mem_singleton] at hm
          cases hm
          exact r4 i hi
      · intro k c hm
        rcases List.mem_append.mp hm with hm | hm
        · have := h.lookupChains k c hm
          simp only [List.map_append]
          exact List.mem_append_left _ this
        · simp only [List.mem_singleton] at hm
          cases hm
          simp

theorem build_inv (records : List SanadRecord) : BuildInv (build_normalized_data records) := by
  have init : BuildInv initState := by
    refine ⟨?_, ?_, ?_, ?_, ?_, ?_, ?_⟩ <;> simp [initState]
  have aux : ∀ (rs : List SanadRecord) (s : BuildState), BuildInv s →
      BuildInv (rs.foldl processRecord s) := by
    intro rs
    induction rs with
    | nil => intro s hs; simpa using hs
    | cons r rest ih =>
        intro s hs
        exact ih _ (processRecord_inv r hs)
  exact aux records initState init

/-- **C2** (confirmed): after any run of the Chain Builder, the chain ID
is a pure function of the resolved narrator-ID tuple — two stored tuples
are equal iff their chain IDs are equal (so equal tuples share one ID and
differing tuples get distinct IDs), each chain ID's stored narrator-ID
list is exactly the tuple it was minted for, and every record link
points at a minted chain ID. -/
theorem chain_id_pure_function_of_tuple (records : List SanadRecord) :
    (∀ t₁ c₁ t₂ c₂, (t₁, c₁) ∈ (build_normalized_data records).chain_to_id →
        (t₂, c₂) ∈ (build_normalized_data records).chain_to_id → (t₁ = t₂ ↔ c₁ = c₂)) ∧
    (∀ t c, (t, c) ∈ (build_normalized_data records).chain_to_id →
        assocFind (build_normalized_data records).chain_id_to_narrator_ids c = some t) ∧
    (∀ k c, (k, c) ∈ (build_normalized_data records).hadith_chain_lookup →
        ∃ t, (t, c) ∈ (build_normalized_data records).chain_to_id) := by
  obtain h := build_inv records
  have hsnd : ((build_normalized_data records).chain_to_id.map Prod.snd).Nodup := by
    rw [h.chainIds]; exact List.nodup_range _
  refine ⟨?_, ?_, ?_⟩
  · intro t₁ c₁ t₂ c₂ h₁ h₂
    constructor
    · intro hteq; subst hteq; exact mem_unique_of_fst_nodup h.chainKeys h₁ h₂
    · intro hceq; subst hceq; exact mem_unique_of_snd_nodup hsnd h₁ h₂
  · intro t c hm
    have hmir : (c, t) ∈ (build_normalized_data records).chain_id_to_narrator_ids := by
      rw [h.mirror]
      exact List.mem_map_of_mem _ hm
    have hkeys :
        ((build_normalized_data records).chain_id_to_narrator_ids.map Prod.fst).Nodup := by
      rw [h.mirror, List.map_map]
      exact hsnd
    exact assocFind_of_mem_nodupKeys hkeys hmir
  · intro k c hm
    obtain ⟨⟨tf, ts⟩, hp, hpe⟩ := List.mem_map.mp (h.lookupChains k c hm)
    simp only at hpe
    subst hpe
    exact ⟨tf, hp⟩

/-- Witness for C2 at a concrete record list: two records with the same
name sequence share chain ID 0, a third with a different sequence gets
chain ID 1, and the stored list for ID 0 is its minting tuple. -/
theorem chain_id_pure_function_of_tuple_witness :
    ([0, 1], 0) ∈
      (build_normalized_data
        [⟨"b", 1, ["x", "y"]⟩, ⟨"b", 2, ["x", "y"]⟩, ⟨"b", 3, ["y"]⟩]).chain_to_id ∧
    ([1], 1) ∈
      (build_normalized_data
        [⟨"b", 1, ["x", "y"]⟩, ⟨"b", 2, ["x", "y"]⟩, ⟨"b", 3, ["y"]⟩]).chain_to_id ∧
    (([0, 1] : List Nat) = [1] ↔ 0 = 1) ∧
    assocFind
      (build_normalized_data
        [⟨"b", 1, ["x", "y"]⟩, ⟨"b", 2, ["x", "y"]⟩, ⟨"b", 3, ["y"]⟩]).chain_id_to_narrator_ids
      0 = some [0, 1] :=
  ⟨by decide, by decide,
   (chain_id_pure_function_of_tuple
      [⟨"b", 1, ["x", "y"]⟩, ⟨"b", 2, ["x", "y"]⟩, ⟨"b", 3, ["y"]⟩]).1
      [0, 1] 0 [1] 1 (by decide) (by decide),
   (chain_id_pure_function_of_tuple
      [⟨"b", 1, ["x", "y"]⟩, ⟨"b", 2, ["x", "y"]⟩, ⟨"b", 3, ["y"]⟩]).2.1
      [0, 1] 0 (by decide)⟩

/-- **C10** (confirmed): narrator IDs are assigned consecutively from 0 in
first-appearance order — the ID column of `narrator_to_id` is exactly
`range next_narrator_id` — so every ID in any stored chain is a valid
index below the number of distinct narrators, and every index below the
count is realized by some narrator (the reconstruction
`[id_to_narrator[i] for i in range(len)]` is total). -/
theorem narrator_ids_consecutive (records : List SanadRecord) :
    (build_normalized_data records).narrator_to_id.map Prod.snd =
        List.range (build_normalized_data records).next_narrator_id ∧
    (build_normalized_data records).narrator_to_id.length =
        (build_normalized_data records).next_narrator_id ∧
    (∀ c t, (c, t) ∈ (build_normalized_data records).chain_id_to_narrator_ids →
        ∀ i ∈ t, i < (build_normalized_data records).next_narrator_id) ∧
    (∀ i, i < (build_normalized_data records).next_narrator_id →
        ∃ name, (name, i) ∈ (build_normalized_data records).narrator_to_id) := by
  obtain h := build_inv records
  refine ⟨h.narrIds, ?_, ?_, ?_⟩
  · have := congrArg List.length h.narrIds
    simpa using this
  · intro c t hm i hi
    rw [h.mirror] at hm
    obtain ⟨⟨tf, ts⟩, hp, hpe⟩ := List.mem_map.mp hm
    simp only [Prod.mk.injEq] at hpe
    obtain ⟨he1, he2⟩ := hpe
    subst he1
    subst he2
    exact h.bounded tf ts hp i hi
  · intro i hi
    have hmm : i ∈ (build_normalized_data records).narrator_to_id.map Prod.snd := by
      rw [h.narrIds]
      exact List.mem_range.mpr hi
    obtain ⟨⟨nm, j⟩, hp, hpe⟩ := List.mem_map.mp hmm
    simp only at hpe
    subst hpe
    exact ⟨nm, hp⟩

/-- Witness for C10 at a concrete record list. -/
theorem narrator_ids_consecutive_witness :
    ((0, [0, 1]) ∈
      (build_normalized_data [⟨"b", 1, ["x", "y"]⟩]).chain_id_to_narrator_ids) ∧
    (1 : Nat) ∈ [0, 1] ∧
    1 < (build_normalized_data [⟨"b", 1, ["x", "y"]⟩]).next_narrator_id ∧
    (0 : Nat) < (build_normalized_data [⟨"b", 1, ["x", "y"]⟩]).next_narrator_id ∧
    ∃ name, (name, 0) ∈ (build_normalized_data [⟨"b", 1, ["x", "y"]⟩]).narrator_to_id :=
  ⟨by decide, by decide,
   (narrator_ids_consecutive [⟨"b", 1, ["x", "y"]⟩]).2.2.1 0 [0, 1] (by decide) 1 (by decide),
   by decide,
   (narrator_ids_consecutive [⟨"b", 1, ["x", "y"]⟩]).2.2.2 0 (by decide)⟩

theorem assocFind_append_of_some {α β : Type} [DecidableEq α] {l l₂ : List (α × β)}
    {k : α} {v : β} (h : assocFind l k = some v) : assocFind (l ++ l₂) k = some v := by
  induction l with
  | nil => simp [assocFind] at h
  | cons p rest ih =>
      obtain ⟨k', w⟩ := p
      by_cases hk : k = k'
      · subst hk
        simp [assocFind] at h ⊢
        exact h
      · simp only [assocFind, if_neg hk] at h
        simpa [assocFind, hk] using ih h

theorem assocFind_insertIfAbsent_of_some {α β : Type} [DecidableEq α]
    {l : List (α × β)} {k k' : α} {v w : β} (h : assocFind l k = some w) :
    assocFind (insertIfAbsent l k' v) k = some w := by
  unfold insertIfAbsent
  by_cases hs : (assocFind l k').isSome
  · simpa [hs] using h
  · simpa [hs] using assocFind_append_of_some h

theorem assocFind_assocSet_ne {α β : Type} [DecidableEq α] {l : List (α × β)}
    {k k' : α} (v : β) (hne : k ≠ k') : assocFind (assocSet l k' v) k = assocFind l k := by
  induction l with
  | nil => simp [assocSet, assocFind, hne]
  | cons p rest ih =>
      obtain ⟨k₀, w⟩ := p
      by_cases h0 : k' = k₀
      · subst h0
        simp [assocSet, assocFind, hne]
      · by_cases h1 : k = k₀ <;> simp [assocSet, assocFind, h0, h1, ih]

theorem assocFind_ibnInserts_of_some {d : Nat} {k : List Char} {w : Nat} :
    ∀ (parts : List (List Char)) (idx : List (List Char × Nat)),
    assocFind idx k = some w → assocFind (ibnInserts d parts idx) k = some w := by
  intro parts
  induction parts with
  | nil => intro idx h; simpa [ibnInserts] using h
  | cons p rest ih =>
      intro idx h
      cases rest with
      | nil => simpa [ibnInserts] using h
      | cons q rest' =>
          by_cases hp : p = bnW
          · by_cases hq : q.length ≥ 3 <;>
              simp only [ibnInserts, hp, if_pos, ite_true, hq, ite_false]
            · exact assocFind_insertIfAbsent_of_some (assocFind_insertIfAbsent_of_some h)
            · exact assocFind_insertIfAbsent_of_some h
          · simp only [ibnInserts, hp, ite_false]
            exact ih idx h

theorem assocFind_ite_insert_of_some {α β : Type} [DecidableEq α] {l : List (α × β)}
    {k : α} {w : β} (c : Prop) [Decidable c] (k' : α) (v : β)
    (h : assocFind l k = some w) :
    assocFind (if c then insertIfAbsent l k' v else l) k = some w := by
  by_cases hc : c
  · simpa [hc] using assocFind_insertIfAbsent_of_some h
  · simpa [hc] using h

theorem assocFind_derivedInserts_of_some {d : Nat} {parts : List (List Char)}
    {idx : List (List Char × Nat)} {k : List Char} {w : Nat}
    (h : assocFind idx k = some w) :
    assocFind (derivedInserts d parts idx) k = some w := by
  unfold derivedInserts
  exact assocFind_ite_insert_of_some _ _ _
    (assocFind_ite_insert_of_some _ _ _
      (assocFind_ibnInserts_of_some _ _
        (assocFind_ite_insert_of_some _ _ _
          (assocFind_ite_insert_of_some _ _ _
            (assocFind_ite_insert_of_some _ _ _
              (assocFind_ite_insert_of_some _ _ _ h))))))

/-- **C3** (corrected, amended): the derived lookup keys (first token,
two/three-token heads, kunyah form, patronymic keys, `ابن`/`بن`-stripped
and nisbah-stripped forms) are inserted with `if key not in index` and
therefore never change an existing binding: a row leaves every key other
than its own full normalized name exactly as it was, so first writer wins
for every derived key.  The full-normalized-name key, however, is
assigned unconditionally, so that one key takes the *last* writer (see
the counterexample). -/
theorem derived_keys_first_writer_wins (idx : List (List Char × Nat))
    (row : List Char × Nat) (k : List Char) (w : Nat)
    (hb : assocFind idx k = some w) (hk : k ≠ normalize_arabic row.1) :
    assocFind (processRow idx row) k = some w := by
  unfold processRow
  by_cases h1 : row.1 = []
  · simpa [h1] using hb
  by_cases h2 : normalize_arabic row.1 = []
  · simpa [h1, h2] using hb
  simp only [h1, h2, if_neg, ite_false]
  exact assocFind_derivedInserts_of_some ((assocFind_assocSet_ne row.2 hk).trans hb)

/-- Witness for C3's amended claim: a binding of the short key `"زيد"`
made by a first row survives a second row whose full name would generate
the same derived key. -/
theorem derived_keys_first_writer_wins_witness :
    assocFind (build_rawi_index [("زيد".toList, 0)]) "زيد".toList = some 0 ∧
    "زيد".toList ≠ normalize_arabic "زيد بن حارثه المحبب".toList ∧
    assocFind
      (processRow (build_rawi_index [("زيد".toList, 0)])
        ("زيد بن حارثه المحبب".toList, 1)) "زيد".toList = some 0 :=
  ⟨by decide, by decide,
   derived_keys_first_writer_wins (build_rawi_index [("زيد".toList, 0)])
     ("زيد بن حارثه المحبب".toList, 1) "زيد".toList 0 (by decide) (by decide)⟩

/-- Counterexample to C3 as stated: for two source rows with the same
normalized full name `"محمد بن زيد"`, the finished index binds that key to
the *second* row's entity, not the first's — the full-name key is
overwritten (`index[normalized] = rawi_data`), so first-writer-wins fails
for it.  (The derived keys `"محمد"`, `"محمد بن"`, `"بن زيد"`, `"زيد"` do
keep the first row's entity.) -/
theorem full_name_key_last_writer_wins :
    assocFind (build_rawi_index [("محمد بن زيد".toList, 0), ("محمد بن زيد".toList, 1)])
        (normalize_arabic "محمد بن زيد".toList) = some 1 ∧
    assocFind (build_rawi_index [("محمد بن زيد".toList, 0), ("محمد بن زيد".toList, 1)])
        (normalize_arabic "محمد بن زيد".toList) ≠ some 0 ∧
    assocFind (build_rawi_index [("محمد بن زيد".toList, 0), ("محمد بن زيد".toList, 1)])
        "محمد".toList = some 0 :=
  ⟨by decide, by decide, by decide⟩

theorem splitResolve_snd_eq_nil_iff (resolve : String → Option Nat) :
    ∀ names : List String,
    (splitResolve resolve names).2 = [] ↔ ∀ n ∈ names, (resolve n).isSome := by
  intro names
  induction names with
  | nil => simp [splitResolve]
  | cons n rest ih =>
      cases hr : resolve n with
      | some i => simp [splitResolve, hr, ih]
      | none => simp [splitResolve, hr]

/-- **C4** (corrected, amended): both correction loops are all-or-nothing —
the chain entry is overwritten exactly when every corrected name
resolves, and is left completely unchanged when any name fails, the
mismatch being appended to the unfixable/skipped queue instead.  The
CSV-based fixer attaches the missing names and the partial ID list
(`partial_chain`) to the re-queued entry; the Gemini-based fixer's skip
entry does *not* carry the partial ID list (see the counterexample). -/
theorem chain_correction_all_or_nothing (resolve : String → Option Nat) (s : FixState)
    (g : GeminiState) (m : FixMismatch) (hid cid : String) (names : List String)
    (conf : String) :
    ((∃ n ∈ m.csv_chain, resolve n = none) →
      (processMismatchCsv resolve s m).chains = s.chains ∧
      (processMismatchCsv resolve s m).unfixable = s.unfixable ++
        [⟨m.hadith_id, m.chain_id, m.csv_chain, (splitResolve resolve m.csv_chain).2,
          (splitResolve resolve m.csv_chain).1⟩]) ∧
    ((∀ n ∈ m.csv_chain, (resolve n).isSome) →
      (processMismatchCsv resolve s m).chains =
        assocSet s.chains m.chain_id (splitResolve resolve m.csv_chain).1 ∧
      (processMismatchCsv resolve s m).unfixable = s.unfixable) ∧
    ((∃ n ∈ names, resolve n = none) →
      (processGeminiResult resolve g hid cid names conf).chains = g.chains ∧
      (processGeminiResult resolve g hid cid names conf).skipped = g.skipped ++
        [⟨hid, cid, geminiReason (splitResolve resolve names).2, conf⟩]) ∧
    ((∀ n ∈ names, (resolve n).isSome) →
      (processGeminiResult resolve g hid cid names conf).chains =
        assocSet g.chains cid (splitResolve resolve names).1 ∧
      (processGeminiResult resolve g hid cid names conf).skipped = g.skipped) := by
  have hm : (splitResolve resolve m.csv_chain).2 ≠ [] ↔
      ¬ ∀ n ∈ m.csv_chain, (resolve n).isSome := by
    rw [← splitResolve_snd_eq_nil_iff]
  have hg : (splitResolve resolve names).2 ≠ [] ↔
      ¬ ∀ n ∈ names, (resolve n).isSome := by
    rw [← splitResolve_snd_eq_nil_iff]
  refine ⟨?_, ?_, ?_, ?_⟩
  · intro hex
    have hne : (splitResolve resolve m.csv_chain).2 ≠ [] := by
      rw [hm]
      intro hall
      obtain ⟨n, hn, hnone⟩ := hex
      have := hall n hn
      rw [hnone] at this
      simp at this
    simp [processMismatchCsv, hne]
  · intro hall
    have hnil : (splitResolve resolve m.csv_chain).2 = [] :=
      (splitResolve_snd_eq_nil_iff resolve m.csv_chain).mpr hall
    simp [processMismatchCsv, hnil]
  · intro hex
    have hne : (splitResolve resolve names).2 ≠ [] := by
      rw [hg]
      intro hall
      obtain ⟨n, hn, hnone⟩ := hex
      have := hall n hn
      rw [hnone] at this
      simp at this
    simp [processGeminiResult, hne]
  · intro hall
    have hnil : (splitResolve resolve names).2 = [] :=
      (splitResolve_snd_eq_nil_iff resolve names).mpr hall
    simp [processGeminiResult, hnil]

/-- Witness for C4's amended claim, instantiating both the
partial-resolution branch (name `"q"` unresolved: chains untouched,
unfixable entry appended with missing names and partial IDs) and the
full-resolution branch (chain `"c1"` overwritten). -/
theorem chain_correction_all_or_nothing_witness :
    (∃ n ∈ ["a", "q"], toyResolve n = none) ∧
    (processMismatchCsv toyResolve ⟨[("c1", [5])], []⟩ ⟨"h1", "c1", ["a", "q"]⟩).chains =
      [("c1", [5])] ∧
    (processMismatchCsv toyResolve ⟨[("c1", [5])], []⟩ ⟨"h1", "c1", ["a", "q"]⟩).unfixable =
      [⟨"h1", "c1", ["a", "q"], ["q"], [0]⟩] ∧
    (∀ n ∈ ["a", "b"], (toyResolve n).isSome) ∧
    (processMismatchCsv toyResolve ⟨[("c1", [5])], []⟩ ⟨"h2", "c1", ["a", "b"]⟩).chains =
      [("c1", [0, 1])] := by
  have h1 := (chain_correction_all_or_nothing toyResolve ⟨[("c1", [5])], []⟩
    ⟨[("c1", [5])], []⟩ ⟨"h1", "c1", ["a", "q"]⟩ "h1" "c1" ["a", "q"] "high").1
    (by decide)
  have h2 := (chain_correction_all_or_nothing toyResolve ⟨[("c1", [5])], []⟩
    ⟨[("c1", [5])], []⟩ ⟨"h2", "c1", ["a", "b"]⟩ "h2" "c1" ["a", "b"] "high").2.1
    (by decide)
  exact ⟨by decide, h1.1, h1.2.trans (by decide), by decide, h2.1.trans (by decide)⟩

/-- Counterexample to C4 as stated (the "together with the partial
result" part): the Gemini fixer's skip entry records only the IDs, a
reason naming the missing names, and the confidence — two oracle results
with *different* partial resolutions (`[0]` vs `[1]`) produce literally
identical states, so the partial result is not written to the queue. -/
theorem gemini_requeue_drops_partial_result :
    processGeminiResult toyResolve ⟨[("c1", [5])], []⟩ "h1" "c1" ["a", "q"] "high" =
      processGeminiResult toyResolve ⟨[("c1", [5])], []⟩ "h1" "c1" ["b", "q"] "high" ∧
    (splitResolve toyResolve ["a", "q"]).1 ≠ (splitResolve toyResolve ["b", "q"]).1 ∧
    (processGeminiResult toyResolve ⟨[("c1", [5])], []⟩ "h1" "c1" ["a", "q"] "high").chains =
      [("c1", [5])] :=
  ⟨by decide, by decide, by decide⟩

theorem mem_wordsOf_ne_nil {l w : List Char} (h : w ∈ wordsOf l) : w ≠ [] := by
  have := (List.mem_filter.mp h).2
  intro he
  subst he
  simp at this

theorem joinWords_ne_nil {ws : List (List Char)} (h1 : ws ≠ [])
    (h2 : ∀ w ∈ ws, w ≠ []) : joinWords ws ≠ [] := by
  cases ws with
  | nil => exact absurd rfl h1
  | cons w ws' =>
      cases ws' with
      | nil => simpa [joinWords] using h2 w (by simp)
      | cons w2 rest => simp [joinWords]

theorem insertIfAbsent_keys_ne_nil {β : Type} {idx : List (List Char × β)}
    {k : List Char} {v : β} (h : ∀ kv ∈ idx, kv.1 ≠ ([] : List Char)) (hk : k ≠ []) :
    ∀ kv ∈ insertIfAbsent idx k v, kv.1 ≠ [] := by
  intro kv hkv
  unfold insertIfAbsent at hkv
  by_cases hs : (assocFind idx k).isSome
  · rw [if_pos hs] at hkv
    exact h kv hkv
  · rw [if_neg hs] at hkv
    rcases List.mem_append.mp hkv with hm | hm
    · exact h kv hm
    · simp only [List.mem_singleton] at hm
      subst hm
      exact hk

theorem ite_insert_keys_ne_nil (c : Prop) [Decidable c] {β : Type}
    {idx : List (List Char × β)} {k : List Char} {v : β}
    (h : ∀ kv ∈ idx, kv.1 ≠ ([] : List Char)) (hk : c → k ≠ []) :
    ∀ kv ∈ (if c then insertIfAbsent idx k v else idx), kv.1 ≠ [] := by
  by_cases hc : c
  · rw [if_pos hc]
    exact insertIfAbsent_keys_ne_nil h (hk hc)
  · rw [if_neg hc]
    exact h

theorem ibnInserts_keys_ne_nil {d : Nat} :
    ∀ (parts : List (List Char)) (idx : List (List Char × Nat)),
    (∀ kv ∈ idx, kv.1 ≠ ([] : List Char)) → ∀ kv ∈ ibnInserts d parts idx, kv.1 ≠ [] := by
  intro parts
  induction parts with
  | nil => intro idx h; simpa [ibnInserts] using h
  | cons p rest ih =>
      intro idx h
      cases rest with
      | nil => simpa [ibnInserts] using h
      | cons q rest' =>
          by_cases hp : p = bnW
          · subst hp
            have h1 : ∀ kv ∈ insertIfAbsent idx (joinWords [bnW, q]) d,
                kv.1 ≠ ([] : List Char) := by
              refine insertIfAbsent_keys_ne_nil h ?_
              simp [joinWords, bnW]
            by_cases hq : q.length ≥ 3 <;>
              simp only [ibnInserts, if_pos, ite_true, hq, ite_false]
            · exact insertIfAbsent_keys_ne_nil h1 (by
                intro he
                rw [he] at hq
                simp at hq)
            · exact h1
          · simp only [ibnInserts, hp, ite_false]
            exact ih idx h

theorem assocSet_keys_ne_nil {β : Type} {idx : List (List Char × β)} {k : List Char}
    {v : β} (h : ∀ kv ∈ idx, kv.1 ≠ ([] : List Char)) (hk : k ≠ []) :
    ∀ kv ∈ assocSet idx k v, kv.1 ≠ [] := by
  induction idx with
  | nil =>
      intro kv hkv
      simp only [assocSet, List.mem_singleton] at hkv
      subst hkv
      exact hk
  | cons p rest ih =>
      intro kv hkv
      obtain ⟨k₀, w⟩ := p
      by_cases h0 : k = k₀
      · rw [show assocSet ((k₀, w) :: rest) k v = (k, v) :: rest by
          simp [assocSet, h0]] at hkv
        rcases List.mem_cons.mp hkv with he | hr
        · subst he; exact hk
        · exact h kv (List.mem_cons_of_mem _ hr)
      · rw [show assocSet ((k₀, w) :: rest) k v = (k₀, w) :: assocSet rest k v by
          simp [assocSet, h0]] at hkv
        rcases List.mem_cons.mp hkv with he | hr
        · subst he; exact h (k₀, w) (by simp)
        · exact ih (fun kv hkv => h kv (List.mem_cons_of_mem _ hkv)) kv hr

theorem derivedInserts_keys_ne_nil {d : Nat} {parts : List (List Char)}
    {idx : List (List Char × Nat)} (h : ∀ kv ∈ idx, kv.1 ≠ ([] : List Char))
    (hp : ∀ w ∈ parts, w ≠ []) :
    ∀ kv ∈ derivedInserts d parts idx, kv.1 ≠ [] := by
  have headD_mem : parts ≠ [] → parts.headD [] ∈ parts := by
    cases parts <;> simp
  have take_ok : ∀ n, 0 < n → parts.length ≥ n → joinWords (parts.take n) ≠ [] := by
    intro n hn hlen
    refine joinWords_ne_nil ?_ ?_
    · have : (parts.take n).length = min n parts.length := List.length_take ..
      intro he
      rw [he] at this
      simp only [List.length_nil] at this
      omega
    · intro w hw
      exact hp w (List.take_subset n parts hw)
  unfold derivedInserts
  refine ite_insert_keys_ne_nil _ (ite_insert_keys_ne_nil _
    (ibnInserts_keys_ne_nil _ _ (ite_insert_keys_ne_nil _ (ite_insert_keys_ne_nil _
      (ite_insert_keys_ne_nil _ (ite_insert_keys_ne_nil _ h ?_) ?_) ?_) ?_)) ?_) ?_
  · intro hc
    intro he
    rw [he] at hc
    simp at hc
  · intro hc
    exact take_ok 2 (by omega) hc
  · intro hc
    exact take_ok 3 (by omega) hc
  · intro hc
    by_cases h2 : parts.length ≥ 2
    · simpa [h2] using take_ok 2 (by omega) h2
    · simp only [h2, ite_false]
      exact hp _ (headD_mem hc.1)
  · exact fun hc => hc.2.2
  · intro hc
    refine joinWords_ne_nil ?_ ?_
    · have : parts.dropLast.length = parts.length - 1 := List.length_dropLast _
      intro he
      rw [he] at this
      simp only [List.length_nil] at this
      omega
    · intro w hw
      exact hp w (List.dropLast_subset _ hw)

theorem build_rawi_index_keys_ne_nil (rows : List (List Char × Nat)) :
    ∀ kv ∈ build_rawi_index rows, kv.1 ≠ ([] : List Char) := by
  have aux : ∀ (rs : List (List Char × Nat)) (idx : List (List Char × Nat)),
      (∀ kv ∈ idx, kv.1 ≠ ([] : List Char)) →
      ∀ kv ∈ rs.foldl processRow idx, kv.1 ≠ [] := by
    intro rs
    induction rs with
    | nil => intro idx h; simpa using h
    | cons row rest ih =>
        intro idx h
        refine ih (processRow idx row) ?_
        unfold processRow
        by_cases h1 : row.1 = []
        · simpa [h1] using h
        by_cases h2 : normalize_arabic row.1 = []
        · simpa [h1, h2] using h
        simp only [h1, h2, if_neg, ite_false]
        exact derivedInserts_keys_ne_nil (assocSet_keys_ne_nil h h2)
          (fun w hw => mem_wordsOf_ne_nil hw)
  exact aux rows [] (by simp)

theorem containment_score_lt_one (a b : Nat) :
    ((min a b : Nat) : ℚ) / ((max a b : Nat) : ℚ) * (95 / 100) < 1 := by
  rcases Nat.eq_zero_or_pos (max a b) with h | h
  · have h0 : min a b = 0 := by omega
    rw [h, h0]
    norm_num
  · have hpos : (0 : ℚ) < ((max a b : Nat) : ℚ) := by exact_mod_cast h
    have hle : ((min a b : Nat) : ℚ) ≤ ((max a b : Nat) : ℚ) := by
      exact_mod_cast min_le_max
    have hq : ((min a b : Nat) : ℚ) / ((max a b : Nat) : ℚ) ≤ 1 :=
      div_le_one_of_le₀ hle (le_of_lt hpos)
    have hnn : (0 : ℚ) ≤ ((min a b : Nat) : ℚ) / ((max a b : Nat) : ℚ) :=
      div_nonneg (by positivity) (le_of_lt hpos)
    nlinarith

theorem containLoop_spec {nq : List Char} {th : ℚ} :
    ∀ (entries : List (List Char × Nat)) (res : Option Nat × ℚ),
    containLoop nq th entries = some res →
    th ≤ res.2 ∧ ∃ k d, (k, d) ∈ entries ∧
      (isSubstr nq k || isSubstr k nq) = true ∧
      res = (some d, ((min nq.length k.length : Nat) : ℚ) /
        ((max nq.length k.length : Nat) : ℚ) * (95 / 100)) := by
  intro entries
  induction entries with
  | nil => intro res h; simp [containLoop] at h
  | cons p rest ih =>
      intro res h
      obtain ⟨k, d⟩ := p
      by_cases hsub : (isSubstr nq k || isSubstr k nq) = true
      · by_cases hth2 : th ≤ ((min nq.length k.length : Nat) : ℚ) /
            ((max nq.length k.length : Nat) : ℚ) * (95 / 100)
        · simp only [containLoop, hsub, if_pos, ite_true, hth2, Option.some.injEq] at h
          subst h
          exact ⟨hth2, k, d, by simp, hsub, rfl⟩
        · simp only [containLoop, hsub, if_pos, ite_true, hth2, ite_false] at h
          obtain ⟨ht, k', d', hm, hs, hv⟩ := ih res h
          exact ⟨ht, k', d', List.mem_cons_of_mem _ hm, hs, hv⟩
      · simp only [containLoop, hsub, ite_false] at h
        obtain ⟨ht, k', d', hm, hs, hv⟩ := ih res h
        exact ⟨ht, k', d', List.mem_cons_of_mem _ hm, hs, hv⟩

/-- **C5** (confirmed): on any built biographical index, a query whose
normalized form is an index key is answered by the exact-lookup strategy
with confidence 1.0 (never by containment); and when exact lookup fails,
a non-fuzzy match can only come from the containment loop, whose
confidence is exactly `shorter/longer × 0.95` for some containment-related
key and is strictly below 1.0 — so exact matches always outrank
containment matches. -/
theorem exact_match_outranks_containment (rows : List (List Char × Nat))
    (idx : List (List Char × Nat)) (q : List Char) (th : ℚ) (f : Bool) :
    (∀ e, assocFind (build_rawi_index rows) (normalize_arabic q) = some e →
      find_best_match q (build_rawi_index rows) th f = (some e, 1)) ∧
    (∀ e sc, assocFind idx (normalize_arabic q) = none →
      find_best_match q idx th false = (some e, sc) →
      sc < 1 ∧ ∃ k d, (k, d) ∈ idx ∧
        (isSubstr (normalize_arabic q) k || isSubstr k (normalize_arabic q)) = true ∧
        sc = ((min (normalize_arabic q).length k.length : Nat) : ℚ) /
          ((max (normalize_arabic q).length k.length : Nat) : ℚ) * (95 / 100)) := by
  constructor
  · intro e hfound
    have hnz : normalize_arabic q ≠ [] :=
      build_rawi_index_keys_ne_nil rows _ (assocFind_eq_some_mem hfound)
    simp [find_best_match, hnz, hfound]
  · intro e sc hnone hfind
    by_cases hnz : normalize_arabic q = []
    · simp [find_best_match, hnz] at hfind
    cases hcl : containLoop (normalize_arabic q) th idx with
    | none => simp [find_best_match, hnz, hnone, hcl] at hfind
    | some res =>
        have hres : res = (some e, sc) := by
          simpa [find_best_match, hnz, hnone, hcl] using hfind
        obtain ⟨hth2, k, d, hmem, hsub, hval⟩ := containLoop_spec idx res hcl
        rw [hres] at hval
        have hsc : sc = ((min (normalize_arabic q).length k.length : Nat) : ℚ) /
            ((max (normalize_arabic q).length k.length : Nat) : ℚ) * (95 / 100) :=
          congrArg Prod.snd hval
        refine ⟨?_, k, d, hmem, hsub, hsc⟩
        rw [hsc]
        exact containment_score_lt_one _ _

/-- Witness for C5: `"أبو بكر"` hits the key `"ابو بكر"` of a one-row
index exactly (confidence 1), and against an index without the exact key
it is matched by containment with confidence `7/14 × 0.95 = 19/40 < 1`. -/
theorem exact_match_outranks_containment_witness :
    assocFind (build_rawi_index [("ابو بكر".toList, 7)])
        (normalize_arabic "أبو بكر".toList) = some 7 ∧
    find_best_match "أبو بكر".toList (build_rawi_index [("ابو بكر".toList, 7)])
        (3 / 5) false = (some 7, 1) ∧
    assocFind [("ابو بكر الصديق".toList, 3)] (normalize_arabic "أبو بكر".toList) = none ∧
    find_best_match "أبو بكر".toList [("ابو بكر الصديق".toList, 3)] (2 / 5) false =
      (some 3, 19 / 40) ∧
    (19 / 40 : ℚ) < 1 := by
  have hn : normalize_arabic "أبو بكر".toList = "ابو بكر".toList := by decide
  have h7 : ("ابو بكر".toList : List Char).length = 7 := by decide
  have h14 : ("ابو بكر الصديق".toList : List Char).length = 14 := by decide
  have hsub : (isSubstr "ابو بكر".toList "ابو بكر الصديق".toList ||
      isSubstr "ابو بكر الصديق".toList "ابو بكر".toList) = true := by decide
  have hscore : ((min 7 14 : Nat) : ℚ) / ((max 7 14 : Nat) : ℚ) * (95 / 100) = 19 / 40 := by
    norm_num
  have hth2 : (2 / 5 : ℚ) ≤ ((min 7 14 : Nat) : ℚ) / ((max 7 14 : Nat) : ℚ) * (95 / 100) := by
    rw [hscore]
    norm_num
  have hcl : containLoop "ابو بكر".toList (2 / 5) [("ابو بكر الصديق".toList, 3)] =
      some (some 3, 19 / 40) := by
    simp only [containLoop, hsub, if_true, h7, h14]
    rw [if_pos hth2, hscore]
  have hnone : assocFind [("ابو بكر الصديق".toList, 3)]
      (normalize_arabic "أبو بكر".toList) = none := by decide
  have hfind : find_best_match "أبو بكر".toList [("ابو بكر الصديق".toList, 3)] (2 / 5) false =
      (some 3, 19 / 40) := by
    rw [hn] at hnone
    simp only [find_best_match, hn, hnone, hcl]
    rw [if_neg (by decide : ¬ ("ابو بكر".toList : List Char) = [])]
  refine ⟨by decide,
    (exact_match_outranks_containment [("ابو بكر".toList, 7)] [] "أبو بكر".toList
      (3 / 5) false).1 7 (by decide),
    by decide, hfind,
    ((exact_match_outranks_containment [] [("ابو بكر الصديق".toList, 3)] "أبو بكر".toList
      (2 / 5) false).2 3 (19 / 40) (by decide) hfind).1⟩

theorem fuzzyLoop_none_imp_zero (nq : List Char) :
    ∀ (entries : List (List Char × Nat)) (acc : Option Nat × ℚ),
    (acc.1 = none → acc.2 = 0) →
    (fuzzyLoop nq entries acc).1 = none → (fuzzyLoop nq entries acc).2 = 0 := by
  intro entries
  induction entries with
  | nil => intro acc h; simpa [fuzzyLoop] using h
  | cons p rest ih =>
      intro acc h
      obtain ⟨k, d⟩ := p
      by_cases hlt : acc.2 < calculate_similarity nq k
      · simp only [fuzzyLoop, hlt, ite_true]
        exact ih _ (by simp)
      · simp only [fuzzyLoop, hlt, ite_false]
        exact ih acc h

/-- **C6** (confirmed): for any threshold at most 1 (the similarity scale;
the configured default is 0.6), the matcher never returns an identity
whose recorded score is below the threshold, and whenever it returns no
identity the recorded score is 0.0 — a query failing all strategies
yields `(none, 0.0)`. -/
theorem matcher_no_fabrication (q : List Char) (idx : List (List Char × Nat)) (th : ℚ)
    (f : Bool) (hth : th ≤ 1) :
    (∀ e sc, find_best_match q idx th f = (some e, sc) → th ≤ sc) ∧
    (∀ sc, find_best_match q idx th f = (none, sc) → sc = 0) := by
  by_cases hnz : normalize_arabic q = []
  · constructor
    · intro e sc h
      simp [find_best_match, hnz] at h
    · intro sc h
      simp [find_best_match, hnz] at h
      exact h.symm
  cases hex : assocFind idx (normalize_arabic q) with
  | some d =>
      constructor
      · intro e sc h
        simp [find_best_match, hnz, hex] at h
        rw [← h.2]
        exact hth
      · intro sc h
        simp [find_best_match, hnz, hex] at h
  | none =>
      cases hcl : containLoop (normalize_arabic q) th idx with
      | some res =>
          obtain ⟨hth2, k, d2, hmem, hsub, hval⟩ := containLoop_spec idx res hcl
          constructor
          · intro e sc h
            have hres : res = (some e, sc) := by
              simpa [find_best_match, hnz, hex, hcl] using h
            rw [hres] at hth2
            exact hth2
          · intro sc h
            have hres : res = (none, sc) := by
              simpa [find_best_match, hnz, hex, hcl] using h
            rw [hres] at hval
            simp at hval
      | none =>
          cases f with
          | false =>
              constructor
              · intro e sc h
                simp [find_best_match, hnz, hex, hcl] at h
              · intro sc h
                simp [find_best_match, hnz, hex, hcl] at h
                exact h.symm
          | true =>
              by_cases hge : th ≤ (fuzzyLoop (normalize_arabic q) idx (none, 0)).2
              · constructor
                · intro e sc h
                  have hres : fuzzyLoop (normalize_arabic q) idx (none, 0) = (some e, sc) := by
                    simpa [find_best_match, hnz, hex, hcl, hge] using h
                  rw [hres] at hge
                  exact hge
                · intro sc h
                  have hres : fuzzyLoop (normalize_arabic q) idx (none, 0) = (none, sc) := by
                    simpa [find_best_match, hnz, hex, hcl, hge] using h
                  have h0 := fuzzyLoop_none_imp_zero (normalize_arabic q) idx (none, 0)
                    (by simp)
                  rw [hres] at h0
                  exact h0 rfl
              · constructor
                · intro e sc h
                  simp [find_best_match, hnz, hex, hcl, hge] at h
                · intro sc h
                  simp [find_best_match, hnz, hex, hcl, hge] at h
                  exact h.symm

/-- Witness for C6 at the default threshold 0.6: a matched query's score
1.0 clears the threshold, and a query matching nothing gets
`(none, 0.0)`. -/
theorem matcher_no_fabrication_witness :
    (3 / 5 : ℚ) ≤ 1 ∧
    find_best_match "أبو بكر".toList (build_rawi_index [("ابو بكر".toList, 7)])
        (3 / 5) false = (some 7, 1) ∧
    (3 / 5 : ℚ) ≤ 1 ∧
    find_best_match "قق".toList (build_rawi_index [("ابو بكر".toList, 7)])
        (3 / 5) false = (none, 0) ∧
    (0 : ℚ) = 0 :=
  ⟨by norm_num, by decide, by norm_num, by decide,
   (matcher_no_fabrication "قق".toList (build_rawi_index [("ابو بكر".toList, 7)])
      (3 / 5) false (by norm_num)).2 0 (by decide)⟩

theorem leadsWith_iff {p l : List Char} : leadsWith p l = true ↔ ∃ r, l = p ++ r := by
  induction p generalizing l with
  | nil => simp [leadsWith]
  | cons a as ih =>
      cases l with
      | nil => simp [leadsWith]
      | cons b bs =>
          simp only [leadsWith, Bool.and_eq_true, beq_iff_eq, ih]
          constructor
          · rintro ⟨rfl, r, rfl⟩
            exact ⟨r, rfl⟩
          · rintro ⟨r, he⟩
            obtain ⟨h1, h2⟩ := List.cons.injEq .. ▸ he
            exact ⟨h1.symm, r, h2⟩

theorem isSubstr_iff {n h : List Char} :
    isSubstr n h = true ↔ ∃ pre post, h = pre ++ n ++ post := by
  unfold isSubstr
  rw [List.any_eq_true]
  constructor
  · rintro ⟨t, ht, hlw⟩
    obtain ⟨pre, hpre⟩ := (List.mem_tails _ _).mp ht
    obtain ⟨post, hpost⟩ := leadsWith_iff.mp hlw
    exact ⟨pre, post, by rw [← hpre, hpost, List.append_assoc]⟩
  · rintro ⟨pre, post, rfl⟩
    refine ⟨n ++ post, ?_, leadsWith_iff.mpr ⟨post, rfl⟩⟩
    rw [List.mem_tails]
    exact ⟨pre, (List.append_assoc ..).symm⟩

theorem names_match_iff (a b : List Char) :
    names_match a b = true ↔
      a = b ∨ (∃ pre post, b = pre ++ a ++ post) ∨ (∃ pre post, a = pre ++ b ++ post) ∨
      ∃ w, w ∈ significantWords a ∧ w ∈ significantWords b := by
  unfold names_match
  by_cases hab : a = b
  · simp [hab]
  rw [if_neg hab]
  by_cases hor : (isSubstr a b || isSubstr b a) = true
  · rw [if_pos hor]
    have hor' : isSubstr a b = true ∨ isSubstr b a = true := by simpa using hor
    constructor
    · intro _
      rcases hor' with hs | hs
      · exact Or.inr (Or.inl (isSubstr_iff.mp hs))
      · exact Or.inr (Or.inr (Or.inl (isSubstr_iff.mp hs)))
    · intro _
      rfl
  · rw [if_neg hor]
    have hs1 : ¬ ∃ pre post, b = pre ++ a ++ post := fun hex =>
      hor (by simp [isSubstr_iff.mpr hex])
    have hs2 : ¬ ∃ pre post, a = pre ++ b ++ post := fun hex =>
      hor (by simp [isSubstr_iff.mpr hex])
    by_cases hcond : significantWords a ≠ [] ∧ significantWords b ≠ []
    · rw [if_pos hcond, List.any_eq_true]
      constructor
      · rintro ⟨w, hw, hwb⟩
        exact Or.inr (Or.inr (Or.inr ⟨w, hw, of_decide_eq_true hwb⟩))
      · rintro (h | h | h | ⟨w, hwa, hwb⟩)
        · exact absurd h hab
        · exact absurd h hs1
        · exact absurd h hs2
        · exact ⟨w, hwa, decide_eq_true hwb⟩
    · rw [if_neg hcond]
      constructor
      · intro h
        simp at h
      · rintro (h | h | h | ⟨w, hwa, hwb⟩)
        · exact absurd h hab
        · exact absurd h hs1
        · exact absurd h hs2
        · exact absurd ⟨List.ne_nil_of_mem hwa, List.ne_nil_of_mem hwb⟩ hcond

/-- **C7** (confirmed): `names_match` on (already normalized) names holds
exactly when the names are equal, one is a contiguous substring of the
other, or the two significant-token sets (words minus the fixed common
set) share at least one token; in particular, on the spec's concrete
chains position 1 (`عروة` vs `عروة بن الزبير`) matches and the whole
chain is classified `matched`. -/
theorem reconciler_names_match_characterization :
    (∀ a b : List Char, names_match a b = true ↔
      a = b ∨ (∃ pre post, b = pre ++ a ++ post) ∨ (∃ pre post, a = pre ++ b ++ post) ∨
      ∃ w, w ∈ significantWords a ∧ w ∈ significantWords b) ∧
    names_match (normalizeV "عروة".toList) (normalizeV "عروة بن الزبير".toList) = true ∧
    chains_match
      (["هشام بن عروة".toList, "عروة".toList, "عائشة".toList].map normalizeV)
      (["هشام بن عروة".toList, "عروة بن الزبير".toList, "عائشة".toList].map normalizeV) =
      (true, ChainCmp.matched) :=
  ⟨names_match_iff, by decide, by decide⟩

theorem mismatchPositions_eq_nil_iff :
    ∀ (l : List (List Char × List Char)) (k : Nat),
    mismatchPositions k l = [] ↔ ∀ p ∈ l, names_match p.1 p.2 = true := by
  intro l
  induction l with
  | nil => intro k; simp [mismatchPositions]
  | cons p rest ih =>
      intro k
      obtain ⟨a, b⟩ := p
      by_cases hm : names_match a b = true
      · simp only [mismatchPositions, hm, ite_true, ih]
        constructor
        · intro hall q hq
          rcases List.mem_cons.mp hq with he | hr
          · subst he; exact hm
          · exact hall q hr
        · intro hall q hq
          exact hall q (List.mem_cons_of_mem _ hq)
      · simp only [mismatchPositions, hm, ite_false]
        constructor
        · intro h
          exact absurd h (List.cons_ne_nil _ _)
        · intro hall
          exact absurd (hall (a, b) (by simp)) hm

theorem mismatchPositions_mem :
    ∀ (ja : List (List Char)) (ca : List (List Char)) (k i : Nat),
    ja.length = ca.length →
    (i ∈ mismatchPositions k (ja.zip ca) ↔
      ∃ j, j < ja.length ∧ i = k + j ∧
        names_match (ja.getD j []) (ca.getD j []) = false) := by
  intro ja
  induction ja with
  | nil =>
      intro ca k i hlen
      simp [mismatchPositions]
  | cons a ja' ih =>
      intro ca k i hlen
      cases ca with
      | nil => simp at hlen
      | cons c ca' =>
          have hlen' : ja'.length = ca'.length := by simpa using hlen
          rw [List.zip_cons_cons]
          by_cases hm : names_match a c = true
          · simp only [mismatchPositions, hm, ite_true]
            rw [ih ca' (k + 1) i hlen']
            constructor
            · rintro ⟨j, hj, rfl, hf⟩
              refine ⟨j + 1, by simpa using hj, by omega, by simpa using hf⟩
            · rintro ⟨j, hj, rfl, hf⟩
              cases j with
              | zero =>
                  simp only [List.getD_cons_zero] at hf
                  rw [hm] at hf
                  cases hf
              | succ j' =>
                  exact ⟨j', by simpa using hj, by omega, by simpa using hf⟩
          · rw [show mismatchPositions k ((a, c) :: ja'.zip ca') =
                k :: mismatchPositions (k + 1) (ja'.zip ca') by
                simp [mismatchPositions, hm]]
            rw [List.mem_cons, ih ca' (k + 1) i hlen']
            constructor
            · rintro (rfl | ⟨j, hj, rfl, hf⟩)
              · refine ⟨0, by simp, by simp, ?_⟩
                simp only [List.getD_cons_zero]
                exact Bool.not_eq_true _ ▸ hm
              · exact ⟨j + 1, by simpa using hj, by omega, by simpa using hf⟩
            · rintro ⟨j, hj, rfl, hf⟩
              cases j with
              | zero => exact Or.inl (by omega)
              | succ j' =>
                  exact Or.inr ⟨j', by simpa using hj, by omega, by simpa using hf⟩

/-- **C8** (confirmed): chain comparison classifies a length difference as
a count mismatch carrying only the two lengths (no positional detail);
for equal lengths it returns `matched` exactly when every aligned pair
passes `names_match`, and otherwise a positional mismatch whose recorded
list contains exactly the 0-based positions where `names_match` fails. -/
theorem chain_comparison_classification (jn cn : List (List Char)) :
    (jn.length ≠ cn.length →
      chains_match jn cn = (false, ChainCmp.countDiff jn.length cn.length)) ∧
    (jn.length = cn.length →
      (chains_match jn cn = (true, ChainCmp.matched) ↔
        ∀ p ∈ jn.zip cn, names_match p.1 p.2 = true) ∧
      (∀ ps, chains_match jn cn = (false, ChainCmp.nameDiff ps) →
        ∀ i, i ∈ ps ↔ i < jn.length ∧
          names_match (jn.getD i []) (cn.getD i []) = false)) := by
  constructor
  · intro hne
    simp [chains_match, hne]
  · intro hlen
    constructor
    · rw [show chains_match jn cn =
          (if mismatchPositions 0 (jn.zip cn) ≠ [] then
            (false, ChainCmp.nameDiff (mismatchPositions 0 (jn.zip cn)))
          else (true, ChainCmp.matched)) by simp [chains_match, hlen]]
      by_cases hps : mismatchPositions 0 (jn.zip cn) = []
      · rw [if_neg (not_not_intro hps)]
        constructor
        · intro _
          exact (mismatchPositions_eq_nil_iff (jn.zip cn) 0).mp hps
        · intro _
          rfl
      · rw [if_pos hps]
        constructor
        · intro h
          simp at h
        · intro hall
          exact absurd ((mismatchPositions_eq_nil_iff (jn.zip cn) 0).mpr hall) hps
    · intro ps hps i
      have heq : ps = mismatchPositions 0 (jn.zip cn) := by
        by_cases h0 : mismatchPositions 0 (jn.zip cn) = []
        · rw [show chains_match jn cn = (true, ChainCmp.matched) by
            simp [chains_match, hlen, h0]] at hps
          cases hps
        · rw [show chains_match jn cn =
              (false, ChainCmp.nameDiff (mismatchPositions 0 (jn.zip cn))) by
              simp [chains_match, hlen, h0]] at hps
          have := congrArg Prod.snd hps
          simpa using this.symm
      subst heq
      rw [mismatchPositions_mem jn cn 0 i hlen]
      constructor
      · rintro ⟨j, hj, rfl, hf⟩
        rw [Nat.zero_add]
        exact ⟨hj, hf⟩
      · rintro ⟨hi, hf⟩
        exact ⟨i, hi, by omega, hf⟩

/-- Witness for C8: a 2-vs-1 chain is a count mismatch; equal-length
chains differing at position 1 yield `nameDiff [1]` with the
characterized membership. -/
theorem chain_comparison_classification_witness :
    (([[ 'a'], [ 'b']] : List (List Char)).length ≠ ([[ 'a']] : List (List Char)).length) ∧
    chains_match [[ 'a'], [ 'b']] [[ 'a']] = (false, ChainCmp.countDiff 2 1) ∧
    (([[ 'a'], [ 'b']] : List (List Char)).length =
      ([[ 'a'], [ 'x']] : List (List Char)).length) ∧
    chains_match [[ 'a'], [ 'b']] [[ 'a'], [ 'x']] = (false, ChainCmp.nameDiff [1]) ∧
    ((1 : Nat) ∈ [1] ↔ 1 < ([[ 'a'], [ 'b']] : List (List Char)).length ∧
      names_match (([[ 'a'], [ 'b']] : List (List Char)).getD 1 [])
        (([[ 'a'], [ 'x']] : List (List Char)).getD 1 []) = false) :=
  ⟨by decide,
   (chain_comparison_classification [[ 'a'], [ 'b']] [[ 'a']]).1 (by decide),
   by decide,
   by decide,
   (chain_comparison_classification [[ 'a'], [ 'b']] [[ 'a'], [ 'x']]).2 (by decide) |>.2
     [1] (by decide) 1⟩

theorem capSplitAux_ne_nil {rest : List Char} :
    ∀ (n : Nat) (cap : List Char), capSplitAux rest n = some cap → cap ≠ [] := by
  intro n
  induction n with
  | zero => intro cap h; simp [capSplitAux] at h
  | succ i ih =>
      intro cap h
      rw [capSplitAux] at h
      cases ht : rest.drop (i + 1) with
      | nil =>
          rw [ht] at h
          rw [if_neg (by simp)] at h
          exact ih cap h
      | cons x xs =>
          rw [ht] at h
          simp only [List.headD_cons] at h
          by_cases hx : x = '\n'
          · rw [if_neg (by simp [hx])] at h
            exact ih cap h
          · rw [if_pos hx] at h
            obtain rfl := Option.some.inj h
            simp [List.takeWhile, show (!(x == '\n')) = true by simpa using hx]

theorem capSplit_ne_nil {rest cap : List Char} (h : capSplit rest = some cap) : cap ≠ [] :=
  capSplitAux_ne_nil _ cap h

theorem tryLitsCap_ne_nil :
    ∀ (alts : List (List Char)) (l cap : List Char),
    tryLitsCap alts l = some cap → cap ≠ [] := by
  intro alts
  induction alts with
  | nil => intro l cap h; simp [tryLitsCap] at h
  | cons a rest ih =>
      intro l cap h
      simp only [tryLitsCap] at h
      cases htl : tryLitCap a l with
      | some c =>
          rw [htl] at h
          obtain rfl : c = cap := Option.some.inj h
          unfold tryLitCap at htl
          by_cases hlw : leadsWith a l = true
          · rw [if_pos hlw] at htl
            exact capSplit_ne_nil htl
          · rw [if_neg hlw] at htl
            cases htl
      | none =>
          rw [htl] at h
          exact ih l cap h

theorem ibnSearch_ne_nil :
    ∀ (l y : List Char), ibnSearch l = some y → y ≠ [] := by
  intro l
  induction l with
  | nil => intro y h; simp [ibnSearch] at h
  | cons c cs ih =>
      intro y h
      simp only [ibnSearch] at h
      cases ht : tryLitsCap ibnAlts (c :: cs) with
      | some cap =>
          rw [ht] at h
          obtain rfl : cap = y := Option.some.inj h
          exact tryLitsCap_ne_nil ibnAlts (c :: cs) _ ht
      | none =>
          rw [ht] at h
          exact ih y h

/-- **C9** (confirmed): a father-reference term with no usable embedded
name (at most two characters after cleanup) is resolved from the
preceding narrator's patronymic: whenever `IBN_PATTERN` finds a capture
`y` in the previous name, the resolver returns `y` (stripped).  On the
spec's concrete chain the position-1 term `أبيه` resolves to `عروة` from
`هشام بن عروة`; the `resolve_kinship` variant extracts the father from
the same name as `عروه`, which is exactly its own normalization of
`عروة`. -/
theorem father_reference_resolution (term prev rest y : List Char) :
    (matchAlts fatherAlts term = some rest →
     (cleanAfter rest).length ≤ 2 →
     prev ≠ [] →
     ibnSearch prev = some y →
     resolve_relative_term term (some prev) = trim y) ∧
    resolve_relative_term "أبيه".toList (some "هشام بن عروة".toList) = "عروة".toList ∧
    resolveChainTerms ["هشام بن عروة".toList, "أبيه".toList, "عائشة".toList] =
      ["هشام بن عروة".toList, "عروة".toList, "عائشة".toList] ∧
    extract_father_name_from_patronymic "هشام بن عروة".toList = some "عروه".toList ∧
    normalizeK "عروة".toList = "عروه".toList := by
  refine ⟨?_, by decide, by decide, by decide, by decide⟩
  intro hmatch hshort hprev hsearch
  have hcond : ¬ (cleanAfter rest ≠ [] ∧ 2 < (cleanAfter rest).length) := by
    rintro ⟨_, hlt⟩
    omega
  have hy : y ≠ [] := ibnSearch_ne_nil prev y hsearch
  simp only [resolve_relative_term, hmatch]
  rw [if_neg hcond, if_neg hprev, hsearch]
  simp only [hy, if_pos, ite_true]
  exact if_pos hy

/-- Witness for C9's general clause at the spec's concrete input. -/
theorem father_reference_resolution_witness :
    matchAlts fatherAlts "أبيه".toList = some [] ∧
    (cleanAfter []).length ≤ 2 ∧
    ("هشام بن عروة".toList : List Char) ≠ [] ∧
    ibnSearch "هشام بن عروة".toList = some "عروة".toList ∧
    resolve_relative_term "أبيه".toList (some "هشام بن عروة".toList) =
      trim "عروة".toList :=
  ⟨by decide, by decide, by decide, by decide,
   (father_reference_resolution "أبيه".toList "هشام بن عروة".toList [] "عروة".toList).1
     (by decide) (by decide) (by decide) (by decide)⟩

end Mki
